import Mathlib

/-!
Shallow embedding of the reconciliation and batching pipeline of
`src/seller.py` (offer-id pagination → remnants parsing → stock/price
derivation → chunked upload), together with theorems settling the frozen
claims about it.

Python dynamic values that flow out of spreadsheet cells are modelled by
`Cell` (a string, an integer, or Python's `None`); Python's `str(...)`
coercion is `pyStr` and Python's `int(...)` is the fallible `pyInt`
(float cells and underscore digit grouping are outside the model).
Functions that can raise return `Option`; `none` models an uncaught
exception.  The mutable `offer_ids` list that `create_stocks` edits in
place is threaded explicitly: the function returns the final value of the
list alongside its result.
-/

namespace Seller

/-- Dynamic value of a spreadsheet cell as seen by the Python code. -/
inductive Cell where
  | str (s : String)
  | num (n : Int)
  | none
deriving DecidableEq, Repr

/-- Python `str(...)` on a cell value. -/
def pyStr : Cell → String
  | .str s => s
  | .num n => toString n
  | .none => "None"

/-- Value of a run of decimal digit characters. -/
def digitsVal (l : List Char) : Nat :=
  l.foldl (fun a c => a * 10 + (c.toNat - 48)) 0

/-- Whitespace characters Python's `int(...)` strips from its argument. -/
def isPySpace (c : Char) : Bool :=
  c = ' ' ∨ c = '\t' ∨ c = '\n' ∨ c = '\r' ∨ c = '\x0b' ∨ c = '\x0c'

/-- Strip leading and trailing whitespace from a character list. -/
def trimChars (l : List Char) : List Char :=
  ((l.dropWhile isPySpace).reverse.dropWhile isPySpace).reverse

/-- Python `int(...)` applied to a string: surrounding whitespace is
ignored, then an optional sign followed by a nonempty digit run parses;
anything else raises (`none`). -/
def parsePyInt (s : String) : Option Int :=
  match trimChars s.toList with
  | [] => Option.none
  | '-' :: rest =>
      if rest ≠ [] ∧ rest.all Char.isDigit then some (-(digitsVal rest : Int))
      else Option.none
  | '+' :: rest =>
      if rest ≠ [] ∧ rest.all Char.isDigit then some (digitsVal rest : Int)
      else Option.none
  | l =>
      if l.all Char.isDigit then some (digitsVal l : Int)
      else Option.none

/-- Python `int(...)` on a cell value; `none` models the raised
`ValueError`/`TypeError`. -/
def pyInt : Cell → Option Int
  | .str s => parsePyInt s
  | .num n => some n
  | .none => Option.none

/-- One remnant row of the supplier file: the "Код", "Количество" and
"Цена" cells (the display-name, image and order columns are never read by
the pipeline). -/
structure Watch where
  kod : Cell
  kolichestvo : Cell
  tsena : Cell
deriving DecidableEq, Repr

/-- The row identifier as the Python code reads it: `str(watch.get("Код"))`. -/
def kodStr (w : Watch) : String := pyStr w.kod

/-- A stock-update record `{"offer_id": ..., "stock": ...}`. -/
structure StockEntry where
  offer_id : String
  stock : Int
deriving DecidableEq, Repr

/-- Stock computed from a row's quantity cell, following the branch in
`create_stocks`: token `">10"` gives 100, token `"1"` gives 0, otherwise
`int(...)` of the raw cell. -/
def stockOf (w : Watch) : Option Int :=
  let count := pyStr w.kolichestvo
  if count = ">10" then some 100
  else if count = "1" then some 0
  else pyInt w.kolichestvo

/-- First loop of `create_stocks`: for each row whose identifier is in the
current `offer_ids` list, append a stock entry and remove the identifier
(Python `list.remove` drops the first occurrence, i.e. `List.erase`).
Returns the matched entries together with the final value of `offer_ids`. -/
def create_stocksAux : List Watch → List String → Option (List StockEntry × List String)
  | [], offer_ids => some ([], offer_ids)
  | w :: ws, offer_ids =>
    if kodStr w ∈ offer_ids then
      match stockOf w with
      | Option.none => Option.none
      | some st =>
        match create_stocksAux ws (offer_ids.erase (kodStr w)) with
        | Option.none => Option.none
        | some (rest, rem) => some (⟨kodStr w, st⟩ :: rest, rem)
    else create_stocksAux ws offer_ids

/-- `create_stocks`: matched rows first, then a zero-stock entry for every
identifier still left in `offer_ids`.  The second component is the final
(mutated) value of the `offer_ids` list. -/
def create_stocks (watch_remnants : List Watch) (offer_ids : List String) :
    Option (List StockEntry × List String) :=
  match create_stocksAux watch_remnants offer_ids with
  | Option.none => Option.none
  | some (matched, rem) => some (matched ++ rem.map (fun i => ⟨i, 0⟩), rem)

/-- A price-update record as built in `create_prices`. -/
structure PriceEntry where
  auto_action_enabled : String
  currency_code : String
  offer_id : String
  old_price : String
  price : String
deriving DecidableEq, Repr

/-- The part of a character list before the first `'.'`:
`price.split(".")[0]`. -/
def splitDotHead : List Char → List Char
  | [] => []
  | c :: cs => if c = '.' then [] else c :: splitDotHead cs

/-- `price_conversion`: keep the part before the first `'.'`, drop every
non-digit character (`re.sub("[^0-9]", "", ...)`).  A non-string argument
raises (`none`): Python has no implicit numeric-to-string coercion here. -/
def price_conversion : Cell → Option String
  | .str s => some (String.mk ((splitDotHead s.toList).filter Char.isDigit))
  | _ => Option.none

/-- `create_prices` with the `offer_ids` list threaded through, so that the
absence of mutation is part of the embedding's statement: the loop never
edits the list, it is returned as received. -/
def create_pricesS : List Watch → List String → Option (List PriceEntry × List String)
  | [], offer_ids => some ([], offer_ids)
  | w :: ws, offer_ids =>
    if kodStr w ∈ offer_ids then
      match price_conversion w.tsena with
      | Option.none => Option.none
      | some pr =>
        match create_pricesS ws offer_ids with
        | Option.none => Option.none
        | some (ps, rem) => some (⟨"UNKNOWN", "RUB", kodStr w, "0", pr⟩ :: ps, rem)
    else create_pricesS ws offer_ids

/-- `divide(lst, n)`: slices `lst[i : i + n]` for `i` in
`range(0, len(lst), n)`.  `range` with step 0 raises `ValueError`
(`none`); for positive `n` the indices are `0, n, 2n, ...` below
`len(lst)`, i.e. `⌈len/n⌉` of them. -/
def divide (lst : List α) (n : Nat) : Option (List (List α)) :=
  if n = 0 then Option.none
  else some ((List.range' 0 ((lst.length + n - 1) / n) n).map
    (fun i => (lst.drop i).take n))

/-- One item of a catalog page; only its `offer_id` field is ever read. -/
structure Product where
  offer_id : String
deriving DecidableEq, Repr

/-- One response of the catalog list endpoint. -/
structure Page where
  items : List Product
  total : Nat
  last_id : String
deriving DecidableEq, Repr

/-- The pagination loop of `get_offer_ids`, with the remote endpoint
abstracted as a function from the cursor (`last_id`) to a page and an
explicit fuel bound: `none` models a loop that has not terminated within
`fuel` requests. -/
def get_offer_idsLoop (server : String → Page) :
    Nat → String → List Product → Option (List Product)
  | 0, _, _ => Option.none
  | fuel + 1, last_id, acc =>
    let p := server last_id
    let acc' := acc ++ p.items
    if p.total = acc'.length then some acc'
    else get_offer_idsLoop server fuel p.last_id acc'

/-- `get_offer_ids`: run the pagination loop from the empty cursor and
extract each accumulated item's offer identifier, in retrieval order. -/
def get_offer_ids (server : String → Page) (fuel : Nat) : Option (List String) :=
  match get_offer_idsLoop server fuel "" [] with
  | Option.none => Option.none
  | some products => some (products.map Product.offer_id)

/-- The cursor the loop holds when it issues its `k`-th request (the first
request uses `last_id = ""`). -/
def cursorAt (server : String → Page) : Nat → String
  | 0 => ""
  | k + 1 => (server (cursorAt server k)).last_id

/-- The page answering the loop's `k`-th request. -/
def pageAt (server : String → Page) (k : Nat) : Page :=
  server (cursorAt server k)

/-- Concatenated items of the first `k` pages, in retrieval order. -/
def catTo (server : String → Page) : Nat → List Product
  | 0 => []
  | k + 1 => catTo server k ++ (pageAt server k).items

/-- `upload_stocks`: fetch the offer identifiers, derive the stock list,
dispatch it (I/O, outside the pure result) and return the pair
`(not_empty, stocks)` where `not_empty` keeps the entries whose stock is
not 0. -/
def upload_stocks (server : String → Page) (fuel : Nat)
    (watch_remnants : List Watch) :
    Option (List StockEntry × List StockEntry) :=
  match get_offer_ids server fuel with
  | Option.none => Option.none
  | some offer_ids =>
    match create_stocks watch_remnants offer_ids with
    | Option.none => Option.none
    | some (stocks, _) =>
      some (stocks.filter (fun e => e.stock ≠ 0), stocks)

/-- The remnant row of the spec's end-to-end scenario:
`{Код: "A", Количество: ">10", Цена: "1'000.00"}`. -/
def sampleRow : Watch := ⟨Cell.str "A", Cell.str ">10", Cell.str "1'000.00"⟩

/-- A three-page catalog with page sizes 1000, 1000 and 500 all reporting
`total = 2500`, keyed by cursor. -/
def server3 : String → Page := fun c =>
  if c = "" then ⟨List.replicate 1000 ⟨"a"⟩, 2500, "c1"⟩
  else if c = "c1" then ⟨List.replicate 1000 ⟨"b"⟩, 2500, "c2"⟩
  else ⟨List.replicate 500 ⟨"c"⟩, 2500, "c3"⟩

/-- A catalog whose pages are empty but whose reported total is 5: the
accumulated count never reaches the total. -/
def serverEmpty : String → Page := fun _ => ⟨[], 5, ""⟩

/-- A catalog that returns offers "A" and "B" on its first page. -/
def serverAB : String → Page := fun _ => ⟨[⟨"A"⟩, ⟨"B"⟩], 2, "x"⟩

/-! Section: Helper lemmas on `create_stocksAux` -/

/-- Unfolding `create_stocks` to its loop. -/
theorem create_stocks_cases {rs : List Watch} {ids : List String}
    {st : List StockEntry} {rem : List String}
    (h : create_stocks rs ids = some (st, rem)) :
    ∃ A, create_stocksAux rs ids = some (A, rem) ∧
      st = A ++ rem.map (fun i => ⟨i, 0⟩) := by
  unfold create_stocks at h
  cases haux : create_stocksAux rs ids with
  | none => rw [haux] at h; exact absurd h (by simp)
  | some p =>
    obtain ⟨A, rem'⟩ := p
    rw [haux] at h
    simp only [Option.some.injEq, Prod.mk.injEq] at h
    obtain ⟨h1, h2⟩ := h
    subst h2
    exact ⟨A, rfl, h1.symm⟩

/-- Structure of the matched pass: on a duplicate-free `offer_ids`, the
final list is the original filtered to the unmatched identifiers, the
matched identifiers all come from the original list, are distinct, and
appear in remnants order. -/
theorem create_stocksAux_spec {ws : List Watch} {ids : List String}
    {A : List StockEntry} {rem : List String} (hnd : ids.Nodup)
    (h : create_stocksAux ws ids = some (A, rem)) :
    rem = ids.filter (fun i => ¬ i ∈ A.map StockEntry.offer_id) ∧
    (∀ a ∈ A, a.offer_id ∈ ids) ∧
    (A.map StockEntry.offer_id).Nodup ∧
    List.Sublist (A.map StockEntry.offer_id) (ws.map kodStr) := by
  induction ws generalizing ids A rem with
  | nil =>
    simp only [create_stocksAux, Option.some.injEq, Prod.mk.injEq] at h
    obtain ⟨hA, hrem⟩ := h
    subst hA; subst hrem
    simp
  | cons w ws ih =>
    by_cases hmem : kodStr w ∈ ids
    · simp only [create_stocksAux, if_pos hmem] at h
      cases hst : stockOf w with
      | none => rw [hst] at h; exact absurd h (by simp)
      | some v =>
        rw [hst] at h
        cases haux : create_stocksAux ws (ids.erase (kodStr w)) with
        | none => rw [haux] at h; exact absurd h (by simp)
        | some p =>
          obtain ⟨A', rem'⟩ := p
          rw [haux] at h
          simp only [Option.some.injEq, Prod.mk.injEq] at h
          obtain ⟨hA, hrem⟩ := h
          subst hrem
          obtain ⟨ih1, ih2, ih3, ih4⟩ := ih (hnd.erase _) haux
          have hsub : ∀ a ∈ A', a.offer_id ∈ ids :=
            fun a ha => List.erase_subset _ _ (ih2 a ha)
          have hknot : kodStr w ∉ A'.map StockEntry.offer_id := by
            intro hk
            obtain ⟨a, ha, hae⟩ := List.mem_map.mp hk
            exact (hnd.not_mem_erase) (hae ▸ ih2 a ha)
          subst hA
          refine ⟨?_, ?_, ?_, ?_⟩
          · rw [ih1, hnd.erase_eq_filter, List.filter_filter]
            apply List.filter_congr
            intro i _
            by_cases h1 : i = kodStr w <;>
              by_cases h2 : i ∈ List.map StockEntry.offer_id A' <;>
                simp [h1, h2]
          · intro a ha
            rcases List.mem_cons.mp ha with rfl | ha'
            · exact hmem
            · exact hsub a ha'
          · exact List.Nodup.cons (by simpa using hknot) ih3
          · simpa using List.Sublist.cons₂ (kodStr w) ih4
    · simp only [create_stocksAux, if_neg hmem] at h
      obtain ⟨ih1, ih2, ih3, ih4⟩ := ih hnd h
      exact ⟨ih1, ih2, ih3, List.Sublist.cons (kodStr w) ih4⟩

/-- On a duplicate-free `offer_ids`, the final list is exactly the
original filtered to the identifiers no remnant row carries. -/
theorem create_stocksAux_rem_kods {ws : List Watch} {ids : List String}
    {A : List StockEntry} {rem : List String} (hnd : ids.Nodup)
    (h : create_stocksAux ws ids = some (A, rem)) :
    rem = ids.filter (fun i => ¬ i ∈ ws.map kodStr) := by
  induction ws generalizing ids A rem with
  | nil =>
    simp only [create_stocksAux, Option.some.injEq, Prod.mk.injEq] at h
    obtain ⟨hA, hrem⟩ := h
    subst hrem
    simp
  | cons w ws ih =>
    by_cases hmem : kodStr w ∈ ids
    · simp only [create_stocksAux, if_pos hmem] at h
      cases hst : stockOf w with
      | none => rw [hst] at h; exact absurd h (by simp)
      | some v =>
        rw [hst] at h
        cases haux : create_stocksAux ws (ids.erase (kodStr w)) with
        | none => rw [haux] at h; exact absurd h (by simp)
        | some p =>
          obtain ⟨A', rem'⟩ := p
          rw [haux] at h
          simp only [Option.some.injEq, Prod.mk.injEq] at h
          obtain ⟨hA, hrem⟩ := h
          subst hrem
          rw [ih (hnd.erase _) haux, hnd.erase_eq_filter, List.filter_filter]
          apply List.filter_congr
          intro i _
          by_cases h1 : i = kodStr w <;>
            by_cases h2 : i ∈ List.map kodStr ws <;>
              simp [h1, h2]
    · simp only [create_stocksAux, if_neg hmem] at h
      rw [ih hnd h]
      apply List.filter_congr
      intro i hi
      have hne : i ≠ kodStr w := fun he => hmem (he ▸ hi)
      by_cases h2 : i ∈ List.map kodStr ws <;> simp [h2, hne]

/-- Every matched entry originates in a remnant row: its identifier is the
row's and its stock is the row's computed stock. -/
theorem create_stocksAux_entries {ws : List Watch} {ids : List String}
    {A : List StockEntry} {rem : List String}
    (h : create_stocksAux ws ids = some (A, rem)) :
    ∀ e ∈ A, ∃ w ∈ ws, e.offer_id = kodStr w ∧ stockOf w = some e.stock := by
  induction ws generalizing ids A rem with
  | nil =>
    simp only [create_stocksAux, Option.some.injEq, Prod.mk.injEq] at h
    obtain ⟨hA, _⟩ := h
    subst hA
    intro e he
    exact absurd he (by simp)
  | cons w ws ih =>
    by_cases hmem : kodStr w ∈ ids
    · simp only [create_stocksAux, if_pos hmem] at h
      cases hst : stockOf w with
      | none => rw [hst] at h; exact absurd h (by simp)
      | some v =>
        rw [hst] at h
        cases haux : create_stocksAux ws (ids.erase (kodStr w)) with
        | none => rw [haux] at h; exact absurd h (by simp)
        | some p =>
          obtain ⟨A', rem'⟩ := p
          rw [haux] at h
          simp only [Option.some.injEq, Prod.mk.injEq] at h
          obtain ⟨hA, _⟩ := h
          subst hA
          intro e he
          rcases List.mem_cons.mp he with rfl | he'
          · exact ⟨w, List.mem_cons_self w ws, rfl, hst⟩
          · obtain ⟨w', hw', h1, h2⟩ := ih haux e he'
            exact ⟨w', List.mem_cons_of_mem w hw', h1, h2⟩
    · simp only [create_stocksAux, if_neg hmem] at h
      intro e he
      obtain ⟨w', hw', h1, h2⟩ := ih h e he
      exact ⟨w', List.mem_cons_of_mem w hw', h1, h2⟩

/-- When both the catalog identifiers and the remnant identifiers are
duplicate-free, every remnant row whose identifier is known produces its
matched entry. -/
theorem create_stocksAux_mem {ws : List Watch} {ids : List String}
    {A : List StockEntry} {rem : List String} (hnd : ids.Nodup)
    (hk : (ws.map kodStr).Nodup)
    (h : create_stocksAux ws ids = some (A, rem)) :
    ∀ w ∈ ws, kodStr w ∈ ids →
      ∃ v, stockOf w = some v ∧ (⟨kodStr w, v⟩ : StockEntry) ∈ A := by
  induction ws generalizing ids A rem with
  | nil => intro w hw; exact absurd hw (by simp)
  | cons w0 ws ih =>
    rw [List.map_cons] at hk
    have hk0 : kodStr w0 ∉ ws.map kodStr := (List.nodup_cons.mp hk).1
    have hkt : (ws.map kodStr).Nodup := (List.nodup_cons.mp hk).2
    by_cases hmem : kodStr w0 ∈ ids
    · simp only [create_stocksAux, if_pos hmem] at h
      cases hst : stockOf w0 with
      | none => rw [hst] at h; exact absurd h (by simp)
      | some v =>
        rw [hst] at h
        cases haux : create_stocksAux ws (ids.erase (kodStr w0)) with
        | none => rw [haux] at h; exact absurd h (by simp)
        | some p =>
          obtain ⟨A', rem'⟩ := p
          rw [haux] at h
          simp only [Option.some.injEq, Prod.mk.injEq] at h
          obtain ⟨hA, _⟩ := h
          subst hA
          intro w hw hwid
          rcases List.mem_cons.mp hw with rfl | hw'
          · exact ⟨v, hst, List.mem_cons_self _ _⟩
          · have hne : kodStr w ≠ kodStr w0 := by
              intro he
              exact hk0 (he ▸ List.mem_map_of_mem kodStr hw')
            have : kodStr w ∈ ids.erase (kodStr w0) :=
              (List.mem_erase_of_ne hne).mpr hwid
            obtain ⟨v', h1, h2⟩ := ih (hnd.erase _) hkt haux w hw' this
            exact ⟨v', h1, List.mem_cons_of_mem _ h2⟩
    · simp only [create_stocksAux, if_neg hmem] at h
      intro w hw hwid
      rcases List.mem_cons.mp hw with rfl | hw'
      · exact absurd hwid hmem
      · exact ih hnd hkt h w hw' hwid

/-! Section: Helper lemmas on `create_pricesS` -/

/-- The threaded `offer_ids` list comes back exactly as it went in: the
price loop never mutates it. -/
theorem create_pricesS_state {ws : List Watch} {ids : List String}
    {ps : List PriceEntry} {ids' : List String}
    (h : create_pricesS ws ids = some (ps, ids')) : ids' = ids := by
  induction ws generalizing ps ids' with
  | nil =>
    simp only [create_pricesS, Option.some.injEq, Prod.mk.injEq] at h
    exact h.2.symm
  | cons w ws ih =>
    by_cases hmem : kodStr w ∈ ids
    · simp only [create_pricesS, if_pos hmem] at h
      cases hpc : price_conversion w.tsena with
      | none => rw [hpc] at h; exact absurd h (by simp)
      | some pr =>
        rw [hpc] at h
        cases haux : create_pricesS ws ids with
        | none => rw [haux] at h; exact absurd h (by simp)
        | some p =>
          obtain ⟨ps', ids''⟩ := p
          rw [haux] at h
          simp only [Option.some.injEq, Prod.mk.injEq] at h
          exact h.2 ▸ ih haux
    · simp only [create_pricesS, if_neg hmem] at h
      exact ih h

/-- When no remnant row's identifier is in `offer_ids`, the price loop
emits nothing. -/
theorem create_pricesS_skip {ws : List Watch} {ids : List String}
    (h : ∀ w ∈ ws, kodStr w ∉ ids) :
    create_pricesS ws ids = some ([], ids) := by
  induction ws with
  | nil => rfl
  | cons w ws ih =>
    have hmem : kodStr w ∉ ids := h w (List.mem_cons_self w ws)
    simp only [create_pricesS, if_neg hmem]
    exact ih (fun w' hw' => h w' (List.mem_cons_of_mem w hw'))

/-- Full description of the price loop's output: one entry per matched
row, constant `auto_action_enabled`/`currency_code`/`old_price` fields,
`price` the converted "Цена" cell, and an entry for every matched row. -/
theorem create_pricesS_spec {ws : List Watch} {ids : List String}
    {ps : List PriceEntry} {ids' : List String}
    (h : create_pricesS ws ids = some (ps, ids')) :
    ps.length = (ws.filter (fun w => kodStr w ∈ ids)).length ∧
    (∀ p ∈ ps, p.auto_action_enabled = "UNKNOWN" ∧ p.currency_code = "RUB" ∧
      p.old_price = "0" ∧
      ∃ w ∈ ws, kodStr w = p.offer_id ∧ kodStr w ∈ ids ∧
        price_conversion w.tsena = some p.price) ∧
    (∀ w ∈ ws, kodStr w ∈ ids → ∃ p ∈ ps, p.offer_id = kodStr w) := by
  induction ws generalizing ps ids' with
  | nil =>
    simp only [create_pricesS, Option.some.injEq, Prod.mk.injEq] at h
    obtain ⟨hps, _⟩ := h
    subst hps
    refine ⟨by simp, ?_, ?_⟩
    · intro p hp; exact absurd hp (by simp)
    · intro w hw; exact absurd hw (by simp)
  | cons w ws ih =>
    by_cases hmem : kodStr w ∈ ids
    · simp only [create_pricesS, if_pos hmem] at h
      cases hpc : price_conversion w.tsena with
      | none => rw [hpc] at h; exact absurd h (by simp)
      | some pr =>
        rw [hpc] at h
        cases haux : create_pricesS ws ids with
        | none => rw [haux] at h; exact absurd h (by simp)
        | some p =>
          obtain ⟨ps', ids''⟩ := p
          rw [haux] at h
          simp only [Option.some.injEq, Prod.mk.injEq] at h
          obtain ⟨hps, _⟩ := h
          subst hps
          obtain ⟨ih1, ih2, ih3⟩ := ih haux
          refine ⟨?_, ?_, ?_⟩
          · simpa [List.filter_cons, hmem] using ih1
          · intro p hp
            rcases List.mem_cons.mp hp with rfl | hp'
            · exact ⟨rfl, rfl, rfl, w, List.mem_cons_self w ws, rfl, hmem, hpc⟩
            · obtain ⟨e1, e2, e3, w', hw', e4, e5, e6⟩ := ih2 p hp'
              exact ⟨e1, e2, e3, w', List.mem_cons_of_mem w hw', e4, e5, e6⟩
          · intro w' hw' hid
            rcases List.mem_cons.mp hw' with rfl | hw''
            · exact ⟨⟨"UNKNOWN", "RUB", kodStr w', "0", pr⟩,
                List.mem_cons_self _ _, rfl⟩
            · obtain ⟨p, hp, he⟩ := ih3 w' hw'' hid
              exact ⟨p, List.mem_cons_of_mem _ hp, he⟩
    · simp only [create_pricesS, if_neg hmem] at h
      obtain ⟨ih1, ih2, ih3⟩ := ih h
      refine ⟨by simpa [List.filter_cons, hmem] using ih1, ?_, ?_⟩
      · intro p hp
        obtain ⟨e1, e2, e3, w', hw', e4, e5, e6⟩ := ih2 p hp
        exact ⟨e1, e2, e3, w', List.mem_cons_of_mem w hw', e4, e5, e6⟩
      · intro w' hw' hid
        rcases List.mem_cons.mp hw' with rfl | hw''
        · exact absurd hid hmem
        · exact ih3 w' hw'' hid

/-! Section: Helper lemmas on `divide` -/

/-- Concatenating the slices at indices `s, s+n, ...` recovers a prefix of
the suffix from `s`. -/
theorem divide_flatten_aux (n : Nat) :
    ∀ (k s : Nat) (l : List α),
      ((List.range' s k n).map (fun i => (l.drop i).take n)).flatten =
        (l.drop s).take (k * n)
  | 0, s, l => by simp
  | k + 1, s, l => by
    rw [List.range'_succ, List.map_cons, List.flatten_cons,
      divide_flatten_aux n k (s + n) l, Nat.succ_mul, Nat.add_comm (k * n) n,
      List.take_add, List.drop_drop]

/-- The slices produced by `divide` concatenate back to the input list. -/
theorem divide_flatten {l : List α} {n : Nat} {cs : List (List α)}
    (h : divide l n = some cs) : cs.flatten = l := by
  unfold divide at h
  by_cases hn : n = 0
  · rw [if_pos hn] at h; exact absurd h (by simp)
  · rw [if_neg hn] at h
    simp only [Option.some.injEq] at h
    subst h
    rw [divide_flatten_aux n ((l.length + n - 1) / n) 0 l, List.drop_zero]
    apply List.take_of_length_le
    rw [Nat.mul_comm]
    have hmod := Nat.div_add_mod (l.length + n - 1) n
    have hlt : (l.length + n - 1) % n < n := Nat.mod_lt _ (Nat.pos_of_ne_zero hn)
    omega

/-- Each slice has at most `n` elements. -/
theorem divide_mem_length {l : List α} {n : Nat} {cs : List (List α)}
    (h : divide l n = some cs) : ∀ c ∈ cs, c.length ≤ n := by
  unfold divide at h
  by_cases hn : n = 0
  · rw [if_pos hn] at h; exact absurd h (by simp)
  · rw [if_neg hn] at h
    simp only [Option.some.injEq] at h
    subst h
    intro c hc
    obtain ⟨i, _, hci⟩ := List.mem_map.mp hc
    subst hci
    simp [List.length_take]

/-- Every slice but possibly the last has exactly `n` elements. -/
theorem divide_full_chunks {l : List α} {n : Nat} {cs : List (List α)}
    (h : divide l n = some cs) :
    ∀ j, (hj : j + 1 < cs.length) → (cs.get ⟨j, Nat.lt_of_succ_lt hj⟩).length = n := by
  unfold divide at h
  by_cases hn : n = 0
  · rw [if_pos hn] at h; exact absurd h (by simp)
  · rw [if_neg hn] at h
    simp only [Option.some.injEq] at h
    subst h
    intro j hj
    simp only [List.length_map, List.length_range'] at hj
    obtain ⟨q', hq⟩ : ∃ q', (l.length + n - 1) / n = q' + 1 :=
      ⟨(l.length + n - 1) / n - 1, by omega⟩
    rw [hq] at hj
    simp only [List.get_eq_getElem, List.getElem_map, List.getElem_range',
      List.length_take, List.length_drop, Nat.zero_add]
    have hmod := Nat.div_add_mod (l.length + n - 1) n
    rw [hq] at hmod
    have hlt : (l.length + n - 1) % n < n := Nat.mod_lt _ (Nat.pos_of_ne_zero hn)
    have hle : n * (j + 1) ≤ n * q' := Nat.mul_le_mul_left n (by omega)
    rw [Nat.mul_succ] at hle hmod
    omega

/-- The empty list yields zero slices. -/
theorem divide_nil_eq {n : Nat} (hn : n ≠ 0) :
    divide ([] : List α) n = some [] := by
  unfold divide
  rw [if_neg hn]
  have h0 : (n - 1) / n = 0 := Nat.div_eq_of_lt (by omega)
  simp [h0]

/-- A nonzero slice width always succeeds. -/
theorem divide_eq_some {l : List α} {n : Nat} (hn : n ≠ 0) :
    divide l n = some ((List.range' 0 ((l.length + n - 1) / n) n).map
      (fun i => (l.drop i).take n)) := by
  unfold divide
  rw [if_neg hn]

/-! Section: Helper lemmas on the pagination loop -/

/-- If the loop's stop test first succeeds at request `m`, the loop,
started anywhere at or before `m` with the items accumulated so far,
returns the items of the first `m + 1` pages. -/
theorem get_offer_idsLoop_reaches (server : String → Page) (m : Nat)
    (hm : (pageAt server m).total = (catTo server (m + 1)).length)
    (hprev : ∀ j, j < m → (pageAt server j).total ≠ (catTo server (j + 1)).length) :
    ∀ fuel k, k ≤ m → m - k < fuel →
      get_offer_idsLoop server fuel (cursorAt server k) (catTo server k) =
        some (catTo server (m + 1)) := by
  intro fuel
  induction fuel with
  | zero => intro k _ hf; exact absurd hf (by omega)
  | succ fuel ih =>
    intro k hk hf
    show (if (pageAt server k).total = (catTo server k ++ (pageAt server k).items).length
      then some (catTo server k ++ (pageAt server k).items)
      else get_offer_idsLoop server fuel (pageAt server k).last_id
        (catTo server k ++ (pageAt server k).items)) = _
    have hcat : catTo server k ++ (pageAt server k).items = catTo server (k + 1) := rfl
    rw [hcat]
    by_cases hstop : (pageAt server k).total = (catTo server (k + 1)).length
    · rw [if_pos hstop]
      have : k = m := by
        by_contra hne
        exact hprev k (by omega) hstop
      rw [this]
    · rw [if_neg hstop]
      have hkm : k ≠ m := fun he => hstop (he ▸ hm)
      have : (pageAt server k).last_id = cursorAt server (k + 1) := rfl
      rw [this]
      exact ih (k + 1) (by omega) (by omega)

/-- If the stop test never succeeds, the loop never returns, whatever the
fuel: the Python loop runs forever. -/
theorem get_offer_idsLoop_stuck (server : String → Page)
    (h : ∀ j, (pageAt server j).total ≠ (catTo server (j + 1)).length) :
    ∀ fuel k, get_offer_idsLoop server fuel (cursorAt server k) (catTo server k) =
      Option.none := by
  intro fuel
  induction fuel with
  | zero => intro k; rfl
  | succ fuel ih =>
    intro k
    show (if (pageAt server k).total = (catTo server k ++ (pageAt server k).items).length
      then some (catTo server k ++ (pageAt server k).items)
      else get_offer_idsLoop server fuel (pageAt server k).last_id
        (catTo server k ++ (pageAt server k).items)) = _
    have hcat : catTo server k ++ (pageAt server k).items = catTo server (k + 1) := rfl
    rw [hcat, if_neg (h k)]
    have : (pageAt server k).last_id = cursorAt server (k + 1) := rfl
    rw [this]
    exact ih (k + 1)

/-- The character-list head of a split on `'.'` is the maximal dot-free
front segment. -/
theorem splitDotHead_eq_takeWhile :
    ∀ l : List Char, splitDotHead l = l.takeWhile (fun c => c ≠ '.')
  | [] => rfl
  | c :: cs => by
    by_cases hc : c = '.'
    · simp [splitDotHead, hc, List.takeWhile_cons]
    · simp [splitDotHead, hc, List.takeWhile_cons, splitDotHead_eq_takeWhile cs]

/-! Section: Claim theorems -/

/-- C1: for every remnants list and every duplicate-free list of catalog
offer identifiers, the successful output of `create_stocks` contains each
catalog offer identifier exactly once (it is a permutation of the catalog
list, each identifier counted once), and is ordered with the matched rows
first in remnants order followed by the unmatched catalog identifiers in
their original order. -/
theorem C1_create_stocks_exactly_once_ordered
    (rs : List Watch) (ids : List String) (st : List StockEntry)
    (rem : List String) (hnd : ids.Nodup)
    (h : create_stocks rs ids = some (st, rem)) :
    List.Perm (st.map StockEntry.offer_id) ids ∧
    (∀ i ∈ ids, (st.map StockEntry.offer_id).count i = 1) ∧
    ∃ A, st = A ++ (ids.filter (fun i => ¬ i ∈ A.map StockEntry.offer_id)).map
        (fun i => ⟨i, 0⟩) ∧
      List.Sublist (A.map StockEntry.offer_id) (rs.map kodStr) := by
  obtain ⟨A, haux, hst⟩ := create_stocks_cases h
  obtain ⟨h1, h2, h3, h4⟩ := create_stocksAux_spec hnd haux
  have hmap : st.map StockEntry.offer_id = A.map StockEntry.offer_id ++ rem := by
    rw [hst, List.map_append, List.map_map]
    rw [show (StockEntry.offer_id ∘ fun i => ({ offer_id := i, stock := 0 } : StockEntry))
      = id from rfl, List.map_id]
  have hperm1 : List.Perm (A.map StockEntry.offer_id)
      (ids.filter (fun i => i ∈ A.map StockEntry.offer_id)) := by
    refine (List.perm_ext_iff_of_nodup h3 (hnd.filter _)).mpr ?_
    intro a
    simp only [List.mem_filter, decide_eq_true_eq]
    exact ⟨fun ha => ⟨by
      obtain ⟨e, he, hea⟩ := List.mem_map.mp ha
      exact hea ▸ h2 e he, ha⟩, fun ha => ha.2⟩
  have hperm : List.Perm (st.map StockEntry.offer_id) ids := by
    have hsplit := List.filter_append_perm
      (fun i => decide (i ∈ A.map StockEntry.offer_id)) ids
    have hfeq : ids.filter (fun i => decide (¬ i ∈ A.map StockEntry.offer_id)) =
        ids.filter (fun i => !decide (i ∈ A.map StockEntry.offer_id)) :=
      List.filter_congr (fun a _ => by rw [decide_not])
    rw [hmap, h1, hfeq]
    exact List.Perm.trans (List.Perm.append hperm1 (List.Perm.refl _)) hsplit
  refine ⟨hperm, ?_, A, ?_, h4⟩
  · intro i hi
    rw [hperm.count_eq]
    exact List.count_eq_one_of_mem hnd hi
  · rw [hst, h1]

/-- C2: for a duplicate-free catalog list and duplicate-free remnant
identifiers, every remnant row whose identifier is a known catalog offer
identifier gets its stock by the exact rule: quantity token `">10"` gives
100, token `"1"` gives 0, any other quantity gives its integer parse; and
every catalog identifier absent from remnants gets stock 0. -/
theorem C2_create_stocks_quantity_rule
    (rs : List Watch) (ids : List String) (st : List StockEntry)
    (rem : List String) (hnd : ids.Nodup) (hk : (rs.map kodStr).Nodup)
    (h : create_stocks rs ids = some (st, rem)) :
    (∀ w ∈ rs, kodStr w ∈ ids →
      (pyStr w.kolichestvo = ">10" → (⟨kodStr w, 100⟩ : StockEntry) ∈ st) ∧
      (pyStr w.kolichestvo = "1" → (⟨kodStr w, 0⟩ : StockEntry) ∈ st) ∧
      (pyStr w.kolichestvo ≠ ">10" → pyStr w.kolichestvo ≠ "1" →
        ∀ v, pyInt w.kolichestvo = some v →
          (⟨kodStr w, v⟩ : StockEntry) ∈ st)) ∧
    (∀ i ∈ ids, i ∉ rs.map kodStr → (⟨i, 0⟩ : StockEntry) ∈ st) := by
  obtain ⟨A, haux, hst⟩ := create_stocks_cases h
  constructor
  · intro w hw hwid
    obtain ⟨v, hv, hmemA⟩ := create_stocksAux_mem hnd hk haux w hw hwid
    have hmem : (⟨kodStr w, v⟩ : StockEntry) ∈ st := by
      rw [hst]; exact List.mem_append_left _ hmemA
    refine ⟨?_, ?_, ?_⟩
    · intro h10
      have : stockOf w = some 100 := by rw [stockOf, if_pos h10]
      rw [this] at hv
      cases hv
      exact hmem
    · intro h1
      have hne : pyStr w.kolichestvo ≠ ">10" := by rw [h1]; decide
      have : stockOf w = some 0 := by rw [stockOf, if_neg hne, if_pos h1]
      rw [this] at hv
      cases hv
      exact hmem
    · intro hne10 hne1 v' hv'
      have : stockOf w = pyInt w.kolichestvo := by
        rw [stockOf, if_neg hne10, if_neg hne1]
      rw [this, hv'] at hv
      cases hv
      exact hmem
  · intro i hi hik
    have hrem := create_stocksAux_rem_kods hnd haux
    have : i ∈ rem := by
      rw [hrem, List.mem_filter]
      exact ⟨hi, by simpa using hik⟩
    rw [hst]
    refine List.mem_append_right _ ?_
    exact List.mem_map.mpr ⟨i, this, rfl⟩

/-- C3: after `create_stocks` has consumed the shared `offer_ids` list,
the list holds only identifiers no remnant row carries, so the
`create_prices` call of `main` on that same list returns the empty
sequence, and chunking the empty sequence at 900 dispatches no batch. -/
theorem C3_main_price_phase_empty
    (rs : List Watch) (ids : List String) (st : List StockEntry)
    (rem : List String) (hnd : ids.Nodup)
    (h : create_stocks rs ids = some (st, rem)) :
    (∀ w ∈ rs, kodStr w ∉ rem) ∧
    create_pricesS rs rem = some ([], rem) ∧
    divide ([] : List PriceEntry) 900 = some [] := by
  obtain ⟨A, haux, _⟩ := create_stocks_cases h
  have hrem := create_stocksAux_rem_kods hnd haux
  have habs : ∀ w ∈ rs, kodStr w ∉ rem := by
    intro w hw hin
    rw [hrem, List.mem_filter] at hin
    have : kodStr w ∉ rs.map kodStr := by simpa using hin.2
    exact this (List.mem_map_of_mem kodStr hw)
  exact ⟨habs, create_pricesS_skip habs, divide_nil_eq (by decide)⟩

/-- C4 counterexample: a remnant row whose quantity parses to a negative
integer produces a Stock Update with negative stock, refuting the claim
that every produced stock is ≥ 0. -/
theorem C4_counterexample :
    create_stocks [⟨Cell.str "X", Cell.str "-1", Cell.str "0"⟩] ["X"]
      = some ([⟨"X", -1⟩], []) ∧ (⟨"X", -1⟩ : StockEntry).stock < 0 :=
  ⟨by decide, by decide⟩

/-- C4 (amended): if every remnant quantity that parses as an integer
parses to a nonnegative value, then every Stock Update produced by
`create_stocks` has stock ≥ 0. -/
theorem C4_amended_stock_nonneg
    (rs : List Watch) (ids : List String) (st : List StockEntry)
    (rem : List String)
    (hq : ∀ w ∈ rs, ∀ v, pyInt w.kolichestvo = some v → 0 ≤ v)
    (h : create_stocks rs ids = some (st, rem)) :
    ∀ e ∈ st, 0 ≤ e.stock := by
  obtain ⟨A, haux, hst⟩ := create_stocks_cases h
  intro e he
  rw [hst] at he
  rcases List.mem_append.mp he with heA | heZ
  · obtain ⟨w, hw, _, hv⟩ := create_stocksAux_entries haux e heA
    rw [stockOf] at hv
    by_cases h10 : pyStr w.kolichestvo = ">10"
    · rw [if_pos h10] at hv
      injection hv with hv
      rw [← hv]
      decide
    · rw [if_neg h10] at hv
      by_cases h1 : pyStr w.kolichestvo = "1"
      · rw [if_pos h1] at hv
        injection hv with hv
        rw [← hv]
      · rw [if_neg h1] at hv
        exact hq w hw e.stock hv
  · obtain ⟨i, _, hei⟩ := List.mem_map.mp heZ
    rw [← hei]

/-- C5 counterexample: `divide` on the list 1..75 with slice width 10
yields 8 groups, of sizes [10,10,10,10,10,10,10,5] — not 7 groups of
sizes [10,10,10,10,10,10,5] as claimed. -/
theorem C5_counterexample :
    (divide ((List.range 75).map (fun i => i + 1)) 10).map List.length = some 8 ∧
    ¬ (divide ((List.range 75).map (fun i => i + 1)) 10).map (List.map List.length)
        = some [10, 10, 10, 10, 10, 10, 5] := by
  constructor
  · decide
  · decide

/-- C5 (amended): `divide` partitions any input list into consecutive
slices of at most `size` elements each, only the last slice possibly
shorter, preserving original order (the slices concatenate back to the
input), and yielding zero slices for an empty input; in particular
`divide` of 1..75 at width 10 yields 8 groups of sizes
[10,10,10,10,10,10,10,5]. -/
theorem C5_divide_partitions :
    (∀ (α : Type) (lst : List α) (n : Nat), n ≠ 0 →
      ∃ cs, divide lst n = some cs ∧ cs.flatten = lst ∧
        (∀ c ∈ cs, c.length ≤ n) ∧
        (∀ j, (hj : j + 1 < cs.length) →
          (cs.get ⟨j, Nat.lt_of_succ_lt hj⟩).length = n) ∧
        (lst = [] → cs = [])) ∧
    (divide ((List.range 75).map (fun i => i + 1)) 10).map (List.map List.length)
      = some [10, 10, 10, 10, 10, 10, 10, 5] := by
  constructor
  · intro α lst n hn
    refine ⟨_, divide_eq_some hn, divide_flatten (divide_eq_some hn),
      divide_mem_length (divide_eq_some hn),
      divide_full_chunks (divide_eq_some hn), ?_⟩
    intro hl
    subst hl
    have hnil := divide_nil_eq (α := α) hn
    rw [divide_eq_some hn] at hnil
    exact (Option.some.injEq _ _).mp hnil
  · decide

/-- C6: `price_conversion` maps every string to the digit string obtained
from the portion before the first `'.'` with every non-digit stripped;
the two spec examples hold; and every non-string input fails rather than
being coerced. -/
theorem C6_price_conversion_spec :
    (∀ s : String, price_conversion (Cell.str s) =
      some (String.mk ((s.toList.takeWhile (fun c => c ≠ '.')).filter
        Char.isDigit))) ∧
    price_conversion (Cell.str "5'990.00") = some "5990" ∧
    price_conversion (Cell.str "123.45") = some "123" ∧
    (∀ n : Int, price_conversion (Cell.num n) = Option.none) ∧
    price_conversion Cell.none = Option.none := by
  refine ⟨?_, by decide, by decide, fun n => rfl, rfl⟩
  intro s
  show some _ = some _
  rw [splitDotHead_eq_takeWhile]

/-- C7: the pagination loop accumulates pages until the accumulated count
equals the page's reported total and then stops with exactly that many
items, returning their offer identifiers in retrieval order; if no prefix
of the page stream ever satisfies that stop test, the loop never returns,
whatever the fuel. -/
theorem C7_pagination_terminates_iff_total_matches :
    (∀ (server : String → Page) (m fuel : Nat),
      (pageAt server m).total = (catTo server (m + 1)).length →
      (∀ j, j < m → (pageAt server j).total ≠ (catTo server (j + 1)).length) →
      m < fuel →
      get_offer_ids server fuel =
        some ((catTo server (m + 1)).map Product.offer_id) ∧
      ((catTo server (m + 1)).map Product.offer_id).length =
        (pageAt server m).total) ∧
    (∀ (server : String → Page) (fuel : Nat),
      (∀ j, (pageAt server j).total ≠ (catTo server (j + 1)).length) →
      get_offer_ids server fuel = Option.none) := by
  constructor
  · intro server m fuel hm hprev hf
    have hloop := get_offer_idsLoop_reaches server m hm hprev fuel 0
      (by omega) (by omega)
    have e1 : cursorAt server 0 = "" := rfl
    have e2 : catTo server 0 = [] := rfl
    rw [e1, e2] at hloop
    constructor
    · unfold get_offer_ids
      rw [hloop]
    · rw [List.length_map]
      exact hm.symm
  · intro server fuel hno
    have hloop := get_offer_idsLoop_stuck server hno fuel 0
    have e1 : cursorAt server 0 = "" := rfl
    have e2 : catTo server 0 = [] := rfl
    rw [e1, e2] at hloop
    unfold get_offer_ids
    rw [hloop]

/-- C8: `create_prices` emits one Price Update per remnant row whose
identifier is in the offer identifier list and none otherwise — each
emitted record carries `currency_code="RUB"`, `old_price="0"`,
`auto_action_enabled="UNKNOWN"`, and the converted "Цена" value as its
price, and originates in a remnant row whose identifier is in the list. -/
theorem C8_create_prices_only_matched
    (rs : List Watch) (ids : List String) (ps : List PriceEntry)
    (ids' : List String) (h : create_pricesS rs ids = some (ps, ids')) :
    ps.length = (rs.filter (fun w => kodStr w ∈ ids)).length ∧
    (∀ p ∈ ps, p.auto_action_enabled = "UNKNOWN" ∧ p.currency_code = "RUB" ∧
      p.old_price = "0" ∧
      ∃ w ∈ rs, kodStr w = p.offer_id ∧ kodStr w ∈ ids ∧
        price_conversion w.tsena = some p.price) ∧
    (∀ w ∈ rs, kodStr w ∈ ids → ∃ p ∈ ps, p.offer_id = kodStr w) :=
  create_pricesS_spec h

/-- C9: the price loop hands its `offer_ids` list back unchanged, while
`create_stocks` on a duplicate-free list removes exactly the identifiers
some remnant row carries, leaving the unmatched identifiers in place in
their original order. -/
theorem C9_mutation_contract :
    (∀ (rs : List Watch) (ids : List String) (ps : List PriceEntry)
      (ids' : List String),
      create_pricesS rs ids = some (ps, ids') → ids' = ids) ∧
    (∀ (rs : List Watch) (ids : List String) (st : List StockEntry)
      (rem : List String), ids.Nodup →
      create_stocks rs ids = some (st, rem) →
      rem = ids.filter (fun i => ¬ i ∈ rs.map kodStr)) := by
  constructor
  · intro rs ids ps ids' h
    exact create_pricesS_state h
  · intro rs ids st rem hnd h
    obtain ⟨A, haux, _⟩ := create_stocks_cases h
    exact create_stocksAux_rem_kods hnd haux

/-- C10: `upload_stocks` returns a pair whose second component is the
full stock-update list produced by `create_stocks` on the fetched offer
identifiers, and whose first component is the subsequence of those
entries with nonzero stock, in the same order. -/
theorem C10_upload_stocks_pair
    (server : String → Page) (fuel : Nat) (rs : List Watch)
    (ne st : List StockEntry)
    (h : upload_stocks server fuel rs = some (ne, st)) :
    (∃ ids rem, get_offer_ids server fuel = some ids ∧
      create_stocks rs ids = some (st, rem)) ∧
    ne = st.filter (fun e => e.stock ≠ 0) ∧
    List.Sublist ne st := by
  unfold upload_stocks at h
  cases hids : get_offer_ids server fuel with
  | none => rw [hids] at h; exact absurd h (by simp)
  | some ids =>
    rw [hids] at h
    have h2 : (match create_stocks rs ids with
        | Option.none => Option.none
        | some (stocks, _) =>
          some (stocks.filter (fun e => e.stock ≠ 0), stocks))
        = some (ne, st) := h
    cases hcs : create_stocks rs ids with
    | none => rw [hcs] at h2; exact absurd h2 (by simp)
    | some p =>
      obtain ⟨st', rem⟩ := p
      rw [hcs] at h2
      simp only [Option.some.injEq, Prod.mk.injEq] at h2
      obtain ⟨hne, hst⟩ := h2
      subst hst
      subst hne
      exact ⟨⟨ids, rem, rfl, hcs⟩, rfl, List.filter_sublist _⟩

/-! Section: Witnesses -/

/-- The trivially-empty catalog accumulates nothing. -/
theorem catTo_serverEmpty : ∀ k, catTo serverEmpty k = []
  | 0 => rfl
  | k + 1 => by
    show catTo serverEmpty k ++ (pageAt serverEmpty k).items = []
    rw [catTo_serverEmpty k]
    rfl

/-- C1 witness: the spec's end-to-end scenario, catalog ["A","B"] and one
matched row. -/
theorem C1_witness :
    List.Perm (([⟨"A", 100⟩, ⟨"B", 0⟩] : List StockEntry).map StockEntry.offer_id)
      ["A", "B"] :=
  (C1_create_stocks_exactly_once_ordered [sampleRow] ["A", "B"]
    [⟨"A", 100⟩, ⟨"B", 0⟩] ["B"] (by decide) (by decide)).1

/-- C2 witness: token `">10"` gives stock 100 in the end-to-end scenario. -/
theorem C2_witness :
    (⟨"A", 100⟩ : StockEntry) ∈ ([⟨"A", 100⟩, ⟨"B", 0⟩] : List StockEntry) :=
  ((C2_create_stocks_quantity_rule [sampleRow] ["A", "B"]
      [⟨"A", 100⟩, ⟨"B", 0⟩] ["B"] (by decide) (by decide) (by decide)).1
    sampleRow (List.mem_singleton.mpr rfl) (by decide)).1 (by decide)

/-- C3 witness: after the stock pass of the scenario, the price pass on
the mutated list is empty. -/
theorem C3_witness :
    create_pricesS [sampleRow] ["B"] = some ([], ["B"]) :=
  (C3_main_price_phase_empty [sampleRow] ["A", "B"]
    [⟨"A", 100⟩, ⟨"B", 0⟩] ["B"] (by decide) (by decide)).2.1

/-- C4 witness of the amended claim: a quantity parsing to 23 keeps every
stock nonnegative. -/
theorem C4_witness : 0 ≤ (⟨"C", 23⟩ : StockEntry).stock :=
  C4_amended_stock_nonneg [⟨Cell.str "C", Cell.str "23", Cell.str "1.0"⟩]
    ["C"] [⟨"C", 23⟩] []
    (by
      intro w hw v hv
      have hw' : w = ⟨Cell.str "C", Cell.str "23", Cell.str "1.0"⟩ := by
        simpa using hw
      subst hw'
      rw [show pyInt (Cell.str "23") = some 23 from by decide] at hv
      injection hv with hv
      rw [← hv]
      decide)
    (by decide) ⟨"C", 23⟩ (by decide)

/-- C5 witness of the amended claim: width 2 on a three-element list. -/
theorem C5_witness :
    ∃ cs, divide ([1, 2, 3] : List Nat) 2 = some cs ∧ cs.flatten = [1, 2, 3] := by
  obtain ⟨cs, h1, h2, _⟩ := C5_divide_partitions.1 Nat [1, 2, 3] 2 (by decide)
  exact ⟨cs, h1, h2⟩

/-- C7 witness: three pages of sizes 1000, 1000 and 500 with total 2500
terminate with exactly 2500 items, while a server whose total never
matches never returns. -/
theorem C7_witness :
    get_offer_ids server3 3 = some ((catTo server3 3).map Product.offer_id) ∧
    ((catTo server3 3).map Product.offer_id).length = 2500 ∧
    get_offer_ids serverEmpty 1000 = Option.none := by
  have hcat1 : catTo server3 1 = List.replicate 1000 (⟨"a"⟩ : Product) := rfl
  have hcat2 : catTo server3 2 =
      List.replicate 1000 (⟨"a"⟩ : Product) ++ List.replicate 1000 ⟨"b"⟩ := rfl
  have hcat3 : catTo server3 3 =
      List.replicate 1000 (⟨"a"⟩ : Product) ++ List.replicate 1000 ⟨"b"⟩ ++
        List.replicate 500 ⟨"c"⟩ := rfl
  have h1 := C7_pagination_terminates_iff_total_matches.1 server3 2 3
    (by
      show (2500 : Nat) = (catTo server3 3).length
      rw [hcat3, List.length_append, List.length_append,
        List.length_replicate, List.length_replicate, List.length_replicate])
    ?hprev (by omega)
  case hprev =>
    intro j hj
    interval_cases j
    · show (2500 : Nat) ≠ (catTo server3 1).length
      rw [hcat1, List.length_replicate]
      decide
    · show (2500 : Nat) ≠ (catTo server3 2).length
      rw [hcat2, List.length_append, List.length_replicate,
        List.length_replicate]
      decide
  refine ⟨h1.1, h1.2.trans (by rfl), ?_⟩
  exact C7_pagination_terminates_iff_total_matches.2 serverEmpty 1000
    (by
      intro j
      rw [catTo_serverEmpty (j + 1)]
      show (5 : Nat) ≠ ([] : List Product).length
      decide)

/-- C8 witness: in the end-to-end scenario one price entry is emitted,
matching the one matched remnant row. -/
theorem C8_witness :
    ([⟨"UNKNOWN", "RUB", "A", "0", "1000"⟩] : List PriceEntry).length =
      ([sampleRow].filter (fun w => kodStr w ∈ ["A", "B"])).length :=
  (C8_create_prices_only_matched [sampleRow] ["A", "B"]
    [⟨"UNKNOWN", "RUB", "A", "0", "1000"⟩] ["A", "B"] (by decide)).1

/-- C9 witness: the price pass returns the list unchanged; the stock pass
leaves exactly the unmatched "B". -/
theorem C9_witness :
    ((["A", "B"] : List String) = ["A", "B"]) ∧
    (["B"] : List String) =
      ["A", "B"].filter (fun i => ¬ i ∈ ([sampleRow].map kodStr)) :=
  ⟨C9_mutation_contract.1 [sampleRow] ["A", "B"]
      [⟨"UNKNOWN", "RUB", "A", "0", "1000"⟩] ["A", "B"] (by decide),
    C9_mutation_contract.2 [sampleRow] ["A", "B"] [⟨"A", 100⟩, ⟨"B", 0⟩]
      ["B"] (by decide) (by decide)⟩

/-- C10 witness: with catalog ["A","B"] and the scenario row, the first
component is the nonzero filter of the second. -/
theorem C10_witness :
    ([⟨"A", 100⟩] : List StockEntry) =
      ([⟨"A", 100⟩, ⟨"B", 0⟩] : List StockEntry).filter
        (fun e => e.stock ≠ 0) :=
  (C10_upload_stocks_pair serverAB 1 [sampleRow] [⟨"A", 100⟩]
    [⟨"A", 100⟩, ⟨"B", 0⟩] (by decide)).2.1

end Seller
